import Mathlib

/-!
Verification development for the animated-transform module
(src/src/linalg/animated_transform.rs).

The module blends between pose keyframes over time.  Its collaborators
(vector, quaternion, matrix/transform, bounding box, scalar lerp and the
b-spline curve evaluator) live outside the provided sources, so they are
modelled here from the specification at the interface level; real numbers
are modelled by the rationals.  All definitions are executable.
-/

namespace TrayRust

/-- Modelled from the spec: 3-component vector collaborator (linalg::Vector /
Point), with rational components standing in for f32. -/
structure Vec3 where
  x : ℚ
  y : ℚ
  z : ℚ
deriving DecidableEq

instance : Inhabited Vec3 := ⟨⟨0, 0, 0⟩⟩

def Vec3.add (a b : Vec3) : Vec3 := ⟨a.x + b.x, a.y + b.y, a.z + b.z⟩

instance : Add Vec3 := ⟨Vec3.add⟩

theorem Vec3.add_def (a b : Vec3) : a + b = Vec3.add a b := rfl

/-- Modelled from the spec: componentwise minimum, as used by the bounding
box union operations. -/
def Vec3.cmin (a b : Vec3) : Vec3 := ⟨min a.x b.x, min a.y b.y, min a.z b.z⟩

/-- Modelled from the spec: componentwise maximum. -/
def Vec3.cmax (a b : Vec3) : Vec3 := ⟨max a.x b.x, max a.y b.y, max a.z b.z⟩

/-- Componentwise order on vectors, used to state box containment. -/
def Vec3.le (a b : Vec3) : Prop := a.x ≤ b.x ∧ a.y ≤ b.y ∧ a.z ≤ b.z

instance (a b : Vec3) : Decidable (Vec3.le a b) := by
  unfold Vec3.le; infer_instance

theorem Vec3.leRefl (a : Vec3) : Vec3.le a a := ⟨le_refl a.x, le_refl a.y, le_refl a.z⟩

theorem Vec3.leTrans {a b c : Vec3} (h1 : Vec3.le a b) (h2 : Vec3.le b c) :
    Vec3.le a c :=
  ⟨h1.1.trans h2.1, h1.2.1.trans h2.2.1, h1.2.2.trans h2.2.2⟩

theorem Vec3.cmin_le_left (a b : Vec3) : Vec3.le (Vec3.cmin a b) a :=
  ⟨min_le_left _ _, min_le_left _ _, min_le_left _ _⟩

theorem Vec3.cmin_le_right (a b : Vec3) : Vec3.le (Vec3.cmin a b) b :=
  ⟨min_le_right _ _, min_le_right _ _, min_le_right _ _⟩

theorem Vec3.le_cmax_left (a b : Vec3) : Vec3.le a (Vec3.cmax a b) :=
  ⟨le_max_left _ _, le_max_left _ _, le_max_left _ _⟩

theorem Vec3.le_cmax_right (a b : Vec3) : Vec3.le b (Vec3.cmax a b) :=
  ⟨le_max_right _ _, le_max_right _ _, le_max_right _ _⟩

/-- Modelled from the spec: quaternion collaborator (linalg::quaternion).
Only the dot product and negation are required at the interface. -/
structure Quaternion where
  x : ℚ
  y : ℚ
  z : ℚ
  w : ℚ
deriving DecidableEq

instance : Inhabited Quaternion := ⟨⟨0, 0, 0, 1⟩⟩

/-- Modelled from the spec: quaternion dot product. -/
def Quaternion.dot (a b : Quaternion) : ℚ :=
  a.x * b.x + a.y * b.y + a.z * b.z + a.w * b.w

/-- Modelled from the spec: quaternion negation (componentwise). -/
def Quaternion.neg (a : Quaternion) : Quaternion := ⟨-a.x, -a.y, -a.z, -a.w⟩

instance : Neg Quaternion := ⟨Quaternion.neg⟩

theorem Quaternion.neg_def (a : Quaternion) : -a = Quaternion.neg a := rfl

theorem Quaternion.dot_neg_right (a b : Quaternion) :
    Quaternion.dot a (-b) = -Quaternion.dot a b := by
  cases a; cases b
  simp only [Quaternion.dot, Quaternion.neg_def, Quaternion.neg]
  ring

/-- Modelled from the spec: 3 x 3 matrix giving the linear part of an affine
transform, stored by rows. -/
structure Mat3 where
  r0 : Vec3
  r1 : Vec3
  r2 : Vec3
deriving DecidableEq

def Vec3.dot (a b : Vec3) : ℚ := a.x * b.x + a.y * b.y + a.z * b.z

def Mat3.col0 (m : Mat3) : Vec3 := ⟨m.r0.x, m.r1.x, m.r2.x⟩

def Mat3.col1 (m : Mat3) : Vec3 := ⟨m.r0.y, m.r1.y, m.r2.y⟩

def Mat3.col2 (m : Mat3) : Vec3 := ⟨m.r0.z, m.r1.z, m.r2.z⟩

def Mat3.apply (m : Mat3) (p : Vec3) : Vec3 :=
  ⟨Vec3.dot m.r0 p, Vec3.dot m.r1 p, Vec3.dot m.r2 p⟩

def Mat3.mul (a b : Mat3) : Mat3 :=
  ⟨⟨Vec3.dot a.r0 b.col0, Vec3.dot a.r0 b.col1, Vec3.dot a.r0 b.col2⟩,
   ⟨Vec3.dot a.r1 b.col0, Vec3.dot a.r1 b.col1, Vec3.dot a.r1 b.col2⟩,
   ⟨Vec3.dot a.r2 b.col0, Vec3.dot a.r2 b.col1, Vec3.dot a.r2 b.col2⟩⟩

def Mat3.id : Mat3 := ⟨⟨1, 0, 0⟩, ⟨0, 1, 0⟩, ⟨0, 0, 1⟩⟩

/-- Modelled from the spec: transform collaborator (linalg::Transform), an
affine map kept as linear part plus translation (the homogeneous 4 x 4
matrix of the source, with its last row fixed at 0 0 0 1; the stored
inverse is irrelevant to the claims and omitted). -/
structure Transform where
  lin : Mat3
  trans : Vec3
deriving DecidableEq

/-- Modelled from the spec: the identity transform. -/
def Transform.identity : Transform := ⟨Mat3.id, ⟨0, 0, 0⟩⟩

/-- Modelled from the spec: transform applied to a point. -/
def Transform.apply (t : Transform) (p : Vec3) : Vec3 :=
  Mat3.apply t.lin p + t.trans

/-- Modelled from the spec: transform composition; (a.mul b) acts as a after b. -/
def Transform.mul (a b : Transform) : Transform :=
  ⟨Mat3.mul a.lin b.lin, Mat3.apply a.lin b.trans + a.trans⟩

instance : Mul Transform := ⟨Transform.mul⟩

theorem Transform.mul_def (a b : Transform) : a * b = Transform.mul a b := rfl

theorem Transform.apply_mul (a b : Transform) (p : Vec3) :
    Transform.apply (Transform.mul a b) p = Transform.apply a (Transform.apply b p) := by
  cases a with | mk al at_ => cases b with | mk bl bt =>
  cases al; cases bl; cases at_; cases bt; cases p
  simp only [Transform.mul, Transform.apply, Mat3.mul, Mat3.apply, Vec3.dot,
    Mat3.col0, Mat3.col1, Mat3.col2, Vec3.add_def, Vec3.add, Vec3.mk.injEq]
  repeat' apply And.intro
  all_goals ring

theorem Transform.mul_assoc (a b c : Transform) :
    Transform.mul (Transform.mul a b) c = Transform.mul a (Transform.mul b c) := by
  cases a with | mk al at_ => cases b with | mk bl bt => cases c with | mk cl ct =>
  cases al; cases bl; cases cl; cases at_; cases bt; cases ct
  simp only [Transform.mul, Mat3.mul, Mat3.apply, Vec3.dot, Mat3.col0, Mat3.col1,
    Mat3.col2, Vec3.add_def, Vec3.add, Transform.mk.injEq, Mat3.mk.injEq,
    Vec3.mk.injEq]
  repeat' apply And.intro
  all_goals ring

theorem Transform.one_mul (a : Transform) :
    Transform.mul Transform.identity a = a := by
  cases a with | mk al at_ =>
  cases al; cases at_
  simp only [Transform.mul, Transform.identity, Mat3.id, Mat3.mul, Mat3.apply,
    Vec3.dot, Mat3.col0, Mat3.col1, Mat3.col2, Vec3.add_def, Vec3.add,
    Transform.mk.injEq, Mat3.mk.injEq, Vec3.mk.injEq]
  repeat' apply And.intro
  all_goals ring

theorem Transform.mul_one (a : Transform) :
    Transform.mul a Transform.identity = a := by
  cases a with | mk al at_ =>
  cases al; cases at_
  simp only [Transform.mul, Transform.identity, Mat3.id, Mat3.mul, Mat3.apply,
    Vec3.dot, Mat3.col0, Mat3.col1, Mat3.col2, Vec3.add_def, Vec3.add,
    Transform.mk.injEq, Mat3.mk.injEq, Vec3.mk.injEq]
  repeat' apply And.intro
  all_goals ring

/-- Modelled from the spec: linalg::Keyframe (not under src/), the pose of the
object at one instant: a time stamp, a translation, a unit rotation
quaternion and a scaling, with the time as the sole ordering key. -/
structure Keyframe where
  time : ℚ
  translation : Vec3
  rotation : Quaternion
  scale : Vec3
deriving DecidableEq

instance : Inhabited Keyframe :=
  ⟨⟨0, ⟨0, 0, 0⟩, ⟨0, 0, 0, 1⟩, ⟨1, 1, 1⟩⟩⟩

/-- Modelled from the spec: rotation matrix of a unit quaternion, the linear
part contributed by the rotation component of a pose. -/
def Quaternion.to_matrix (q : Quaternion) : Mat3 :=
  ⟨⟨1 - 2 * (q.y * q.y + q.z * q.z), 2 * (q.x * q.y - q.w * q.z), 2 * (q.x * q.z + q.w * q.y)⟩,
   ⟨2 * (q.x * q.y + q.w * q.z), 1 - 2 * (q.x * q.x + q.z * q.z), 2 * (q.y * q.z - q.w * q.x)⟩,
   ⟨2 * (q.x * q.z - q.w * q.y), 2 * (q.y * q.z + q.w * q.x), 1 - 2 * (q.x * q.x + q.y * q.y)⟩⟩

/-- Modelled from the spec: diagonal scaling matrix of a scale vector. -/
def Mat3.scaling (s : Vec3) : Mat3 :=
  ⟨⟨s.x, 0, 0⟩, ⟨0, s.y, 0⟩, ⟨0, 0, s.z⟩⟩

/-- Modelled from the spec: Keyframe::transform materializes the pose as a
full transform, applying scale, then rotation, then translation. -/
def Keyframe.transform (k : Keyframe) : Transform :=
  ⟨Mat3.mul (Quaternion.to_matrix k.rotation) (Mat3.scaling k.scale), k.translation⟩

/-- Insertion step of the keyframe sort: place k after every element whose
time is at most k.time, so that elements of equal time keep their order. -/
def insertKeyframe (k : Keyframe) : List Keyframe → List Keyframe
  | [] => [k]
  | x :: xs => if x.time ≤ k.time then x :: insertKeyframe k xs else k :: x :: xs

/-- The keyframes.sort() call of with_keyframes: Vec::sort is a stable sort
ordered by the Keyframe ordering, which compares times only; it is embedded
as a stable insertion sort, which computes the same list. -/
def sortKeyframes (ks : List Keyframe) : List Keyframe :=
  ks.foldl (fun acc k => insertKeyframe k acc) []

/-- One step of the shortest-path correction (lines 29-31 of the source): the
current rotation is negated when its dot product with the already-corrected
predecessor is negative. -/
def correctRotation (prev k : Keyframe) : Keyframe :=
  if Quaternion.dot prev.rotation k.rotation < 0 then
    { k with rotation := -k.rotation } else k

/-- The shortest-path correction loop of with_keyframes, translated from the
loop at lines 26-32 of the source: walking left to right, each keyframe is
corrected against the already-corrected keyframe before it. -/
def fixRotationsFrom (prev : Keyframe) : List Keyframe → List Keyframe
  | [] => []
  | k :: ks =>
    correctRotation prev k :: fixRotationsFrom (correctRotation prev k) ks

/-- The whole correction pass: the first keyframe is never modified. -/
def fixRotations : List Keyframe → List Keyframe
  | [] => []
  | k :: ks => k :: fixRotationsFrom k ks

/-- Modelled from the spec: geometry::BBox (not under src/), an axis-aligned
box.  BBox::new() of the source seeds min with plus infinity and max with
minus infinity so that unions start from an empty box; the rationals have no
infinities, so the empty seed is carried as an explicit flag. -/
structure BBox where
  empty : Bool
  bmin : Vec3
  bmax : Vec3
deriving DecidableEq

/-- Modelled from the spec: BBox::new(), the empty box. -/
def BBox.new : BBox := ⟨true, ⟨0, 0, 0⟩, ⟨0, 0, 0⟩⟩

/-- Modelled from the spec: box_union, the componentwise min/max union of two
boxes; the empty seed behaves as the unit, as the infinite seed does in the
source. -/
def BBox.box_union (a b : BBox) : BBox :=
  if a.empty then b
  else if b.empty then a
  else ⟨false, Vec3.cmin a.bmin b.bmin, Vec3.cmax a.bmax b.bmax⟩

/-- Modelled from the spec: folding a point into a box (point_union). -/
def BBox.point_union (b : BBox) (p : Vec3) : BBox :=
  if b.empty then ⟨false, p, p⟩
  else ⟨false, Vec3.cmin b.bmin p, Vec3.cmax b.bmax p⟩

/-- The eight corners of a box. -/
def BBox.corners (b : BBox) : List Vec3 :=
  [⟨b.bmin.x, b.bmin.y, b.bmin.z⟩, ⟨b.bmax.x, b.bmin.y, b.bmin.z⟩,
   ⟨b.bmin.x, b.bmax.y, b.bmin.z⟩, ⟨b.bmax.x, b.bmax.y, b.bmin.z⟩,
   ⟨b.bmin.x, b.bmin.y, b.bmax.z⟩, ⟨b.bmax.x, b.bmin.y, b.bmax.z⟩,
   ⟨b.bmin.x, b.bmax.y, b.bmax.z⟩, ⟨b.bmax.x, b.bmax.y, b.bmax.z⟩]

/-- Modelled from the spec: applying a transform to a bounding box (the
t * *b of the source) transforms the eight corners and takes their bounds. -/
def Transform.mul_bbox (t : Transform) (b : BBox) : BBox :=
  b.corners.foldl (fun acc c => acc.point_union (Transform.apply t c)) BBox.new

instance : HMul Transform BBox BBox := ⟨Transform.mul_bbox⟩

/-- One box contains another: an empty box is contained in anything, and a
non-empty box must be bracketed componentwise by a non-empty container. -/
def BBox.contains_bbox (a b : BBox) : Prop :=
  b.empty = true ∨ (a.empty = false ∧ Vec3.le a.bmin b.bmin ∧ Vec3.le b.bmax a.bmax)

instance (a b : BBox) : Decidable (BBox.contains_bbox a b) := by
  unfold BBox.contains_bbox; infer_instance

/-- Modelled from the spec: linalg::lerp, scalar linear interpolation. -/
def lerp (t a b : ℚ) : ℚ := (1 - t) * a + t * b

/-- The curve-evaluator collaborator (the external bspline crate): an
evaluator is constructed from a degree, a control point list and a knot
vector, and exposes its control points. -/
structure BSpline where
  degree : Nat
  control_points : List Keyframe
  knots : List ℚ
deriving DecidableEq

/-- BSpline::new of the collaborator interface. -/
def BSpline.new (degree : Nat) (points : List Keyframe) (knots : List ℚ) : BSpline :=
  ⟨degree, points, knots⟩

/-- The interpolation query of the curve evaluator is a black box: theorems
quantify over any evaluator of this shape. -/
def SplinePoint : Type := BSpline → ℚ → Keyframe

/-- src/src/linalg/animated_transform.rs line 14: the animated transform, a
list of per-level keyframe curves in hierarchical order (index 0 is the
object's own level). -/
structure AnimatedTransform where
  keyframes : List BSpline
deriving DecidableEq

/-- AnimatedTransform::with_keyframes (lines 22-40).  The sort and the
shortest-path pass normalize the list, then a knot vector is built from the
first one or two times.  The source indexes keyframes[0] and keyframes[1]
without a check, which panics on an empty input; the panic is modelled by
returning none. -/
def AnimatedTransform.with_keyframes (keyframes : List Keyframe) :
    Option AnimatedTransform :=
  let fixed := fixRotations (sortKeyframes keyframes)
  if fixed.length = 1 then
    match fixed.get? 0 with
    | some k0 => some ⟨[BSpline.new 1 fixed [k0.time, k0.time, k0.time]]⟩
    | none => none
  else
    match fixed.get? 0, fixed.get? 1 with
    | some k0, some k1 =>
        some ⟨[BSpline.new 1 fixed [k0.time, k0.time, k1.time, k1.time]]⟩
    | _, _ => none

/-- The per-level pose of lines 50-55: a level with a single control point is
read directly, otherwise the curve evaluator is queried at the time. -/
def levelPose (point_at : SplinePoint) (spline : BSpline) (time : ℚ) : Transform :=
  if spline.control_points.length = 1 then
    Keyframe.transform (spline.control_points.headD default)
  else
    Keyframe.transform (point_at spline time)

/-- AnimatedTransform::transform (lines 45-59): starting from the identity,
each level's pose at the queried time is multiplied from the left. -/
def AnimatedTransform.transform (point_at : SplinePoint) (a : AnimatedTransform)
    (time : ℚ) : Transform :=
  a.keyframes.foldl (fun tr spline => Transform.mul (levelPose point_at spline time) tr)
    Transform.identity

/-- AnimatedTransform::is_animated (lines 76-78). -/
def AnimatedTransform.is_animated (a : AnimatedTransform) : Bool :=
  a.keyframes.isEmpty ||
    a.keyframes.foldl (fun b spline => b && decide (1 < spline.control_points.length)) true

/-- AnimatedTransform::animation_bounds (lines 61-74): a non-animated
transform is applied once at the start time; otherwise the box is sampled at
128 times and the union of the results is accumulated. -/
def AnimatedTransform.animation_bounds (point_at : SplinePoint)
    (a : AnimatedTransform) (b : BBox) (start stop : ℚ) : BBox :=
  if !a.is_animated then
    Transform.mul_bbox (a.transform point_at start) b
  else
    (List.range 128).foldl
      (fun ret i =>
        ret.box_union
          (Transform.mul_bbox (a.transform point_at (lerp ((i : ℚ) / 127) start stop)) b))
      BBox.new

/-- impl Mul for AnimatedTransform (lines 84-89): each of the left operand's
levels is pushed onto the right operand's level list. -/
def AnimatedTransform.mul (self rhs : AnimatedTransform) : AnimatedTransform :=
  ⟨self.keyframes.foldl (fun acc l => acc ++ [l]) rhs.keyframes⟩

instance : Mul AnimatedTransform := ⟨AnimatedTransform.mul⟩

/-! Helper lemmas about the embedded operations. -/

theorem mem_insertKeyframe {y k : Keyframe} {l : List Keyframe} :
    y ∈ insertKeyframe k l ↔ y = k ∨ y ∈ l := by
  induction l with
  | nil => simp [insertKeyframe]
  | cons x xs ih =>
    rw [insertKeyframe]
    split
    · simp only [List.mem_cons, ih]
      tauto
    · simp [List.mem_cons]

theorem pairwise_insertKeyframe {k : Keyframe} {l : List Keyframe}
    (h : List.Pairwise (fun x y => x.time ≤ y.time) l) :
    List.Pairwise (fun x y => x.time ≤ y.time) (insertKeyframe k l) := by
  induction l with
  | nil => simp [insertKeyframe]
  | cons x xs ih =>
    rw [insertKeyframe]
    rw [List.pairwise_cons] at h
    split
    case isTrue hc =>
      rw [List.pairwise_cons]
      refine ⟨?_, ih h.2⟩
      intro y hy
      rcases mem_insertKeyframe.mp hy with rfl | hy
      · exact hc
      · exact h.1 y hy
    case isFalse hc =>
      have hk : k.time ≤ x.time := le_of_not_le hc
      rw [List.pairwise_cons]
      refine ⟨?_, List.pairwise_cons.mpr h⟩
      intro y hy
      rcases List.mem_cons.mp hy with rfl | hy
      · exact hk
      · exact hk.trans (h.1 y hy)

theorem pairwise_sortKeyframes_fold (ks acc : List Keyframe)
    (h : List.Pairwise (fun x y => x.time ≤ y.time) acc) :
    List.Pairwise (fun x y => x.time ≤ y.time)
      (ks.foldl (fun a k => insertKeyframe k a) acc) := by
  induction ks generalizing acc with
  | nil => exact h
  | cons k ks ih => exact ih _ (pairwise_insertKeyframe h)

theorem pairwise_sortKeyframes (ks : List Keyframe) :
    List.Pairwise (fun x y => x.time ≤ y.time) (sortKeyframes ks) :=
  pairwise_sortKeyframes_fold ks [] List.Pairwise.nil

theorem length_insertKeyframe (k : Keyframe) (l : List Keyframe) :
    (insertKeyframe k l).length = l.length + 1 := by
  induction l with
  | nil => rfl
  | cons x xs ih =>
    rw [insertKeyframe]
    split
    · simp [ih]
    · simp

theorem length_sortKeyframes_fold (ks acc : List Keyframe) :
    (ks.foldl (fun a k => insertKeyframe k a) acc).length = acc.length + ks.length := by
  induction ks generalizing acc with
  | nil => rfl
  | cons k ks ih =>
    rw [List.foldl_cons, ih, length_insertKeyframe, List.length_cons]
    omega

theorem length_sortKeyframes (ks : List Keyframe) :
    (sortKeyframes ks).length = ks.length := by
  rw [sortKeyframes, length_sortKeyframes_fold, List.length_nil]
  omega

theorem time_correctRotation (prev k : Keyframe) :
    (correctRotation prev k).time = k.time := by
  rw [correctRotation]
  split <;> rfl

theorem dot_correctRotation_nonneg (prev k : Keyframe) :
    0 ≤ Quaternion.dot prev.rotation (correctRotation prev k).rotation := by
  rw [correctRotation]
  split
  case isTrue hneg =>
    show 0 ≤ Quaternion.dot prev.rotation (-k.rotation)
    rw [Quaternion.dot_neg_right]
    linarith
  case isFalse hpos => linarith [not_lt.mp hpos]

theorem map_time_fixRotationsFrom (prev : Keyframe) (l : List Keyframe) :
    (fixRotationsFrom prev l).map Keyframe.time = l.map Keyframe.time := by
  induction l generalizing prev with
  | nil => rfl
  | cons k ks ih =>
    rw [fixRotationsFrom, List.map_cons, List.map_cons, time_correctRotation, ih]

theorem map_time_fixRotations (l : List Keyframe) :
    (fixRotations l).map Keyframe.time = l.map Keyframe.time := by
  cases l with
  | nil => rfl
  | cons k ks =>
    rw [fixRotations, List.map_cons, List.map_cons, map_time_fixRotationsFrom]

theorem length_fixRotations (l : List Keyframe) :
    (fixRotations l).length = l.length := by
  have h := congrArg List.length (map_time_fixRotations l)
  simpa using h

theorem pairwise_time_fixRotations (l : List Keyframe)
    (h : List.Pairwise (fun x y => x.time ≤ y.time) l) :
    List.Pairwise (fun x y => x.time ≤ y.time) (fixRotations l) := by
  have h1 : List.Pairwise (fun a b => a ≤ b) (l.map Keyframe.time) :=
    List.pairwise_map.mpr h
  rw [← map_time_fixRotations] at h1
  exact List.pairwise_map.mp h1

theorem chain_dot_fixRotationsFrom (prev : Keyframe) (l : List Keyframe) :
    List.Chain' (fun x y => 0 ≤ Quaternion.dot x.rotation y.rotation)
      (prev :: fixRotationsFrom prev l) := by
  induction l generalizing prev with
  | nil => exact List.chain'_singleton prev
  | cons k ks ih =>
    rw [fixRotationsFrom, List.chain'_cons]
    exact ⟨dot_correctRotation_nonneg prev k, ih (correctRotation prev k)⟩

theorem chain_dot_fixRotations (l : List Keyframe) :
    List.Chain' (fun x y => 0 ≤ Quaternion.dot x.rotation y.rotation)
      (fixRotations l) := by
  cases l with
  | nil => exact List.chain'_nil
  | cons k ks => exact chain_dot_fixRotationsFrom k ks

theorem with_keyframes_shape {ks : List Keyframe} {a : AnimatedTransform}
    (h : AnimatedTransform.with_keyframes ks = some a) :
    ∃ kn, a = ⟨[BSpline.new 1 (fixRotations (sortKeyframes ks)) kn]⟩ := by
  rw [AnimatedTransform.with_keyframes] at h
  split at h
  · split at h
    · exact ⟨_, (Option.some.injEq _ _ ▸ h).symm⟩
    · cases h
  · split at h
    · exact ⟨_, (Option.some.injEq _ _ ▸ h).symm⟩
    · cases h

theorem foldl_push_eq_append {α : Type} (l init : List α) :
    l.foldl (fun acc x => acc ++ [x]) init = init ++ l := by
  induction l generalizing init with
  | nil => simp
  | cons x xs ih =>
    rw [List.foldl_cons, ih]
    simp

theorem mul_keyframes_eq (a b : AnimatedTransform) :
    (a.mul b).keyframes = b.keyframes ++ a.keyframes := by
  rw [AnimatedTransform.mul]
  exact foldl_push_eq_append a.keyframes b.keyframes

theorem foldl_and_eq (p : BSpline → Bool) (l : List BSpline) (b : Bool) :
    l.foldl (fun acc s => acc && p s) b = (b && l.all p) := by
  induction l generalizing b with
  | nil => simp
  | cons s l ih =>
    rw [List.foldl_cons, ih, List.all_cons]
    cases b <;> cases p s <;> simp

theorem transform_foldl_factor (pt : SplinePoint) (t : ℚ) (l : List BSpline)
    (init : Transform) :
    l.foldl (fun tr s => Transform.mul (levelPose pt s t) tr) init =
      Transform.mul (l.foldl (fun tr s => Transform.mul (levelPose pt s t) tr)
        Transform.identity) init := by
  induction l generalizing init with
  | nil => exact (Transform.one_mul init).symm
  | cons s l ih =>
    rw [List.foldl_cons, List.foldl_cons, ih, ih (Transform.mul (levelPose pt s t)
      Transform.identity), Transform.mul_one, Transform.mul_assoc]

theorem transform_mul_eq (pt : SplinePoint) (a b : AnimatedTransform) (t : ℚ) :
    AnimatedTransform.transform pt (a.mul b) t =
      Transform.mul (AnimatedTransform.transform pt a t)
        (AnimatedTransform.transform pt b t) := by
  unfold AnimatedTransform.transform
  rw [mul_keyframes_eq, List.foldl_append, transform_foldl_factor]

theorem contains_bbox_box_union_right (a b : BBox) :
    (a.box_union b).contains_bbox b := by
  cases ha : a.empty <;> cases hb : b.empty <;>
    simp [BBox.box_union, BBox.contains_bbox, ha, hb, Vec3.leRefl,
      Vec3.cmin_le_right, Vec3.le_cmax_right]

theorem contains_bbox_box_union_left_mono {a c : BBox} (b : BBox)
    (h : a.contains_bbox c) : (a.box_union b).contains_bbox c := by
  rcases h with hc | ⟨ha, h1, h2⟩
  · exact Or.inl hc
  · cases hb : b.empty
    · have hu : a.box_union b =
          ⟨false, Vec3.cmin a.bmin b.bmin, Vec3.cmax a.bmax b.bmax⟩ := by
        simp [BBox.box_union, ha, hb]
      rw [hu]
      exact Or.inr ⟨rfl, Vec3.leTrans (Vec3.cmin_le_left _ _) h1,
        Vec3.leTrans h2 (Vec3.le_cmax_left _ _)⟩
    · have hu : a.box_union b = a := by simp [BBox.box_union, ha, hb]
      rw [hu]
      exact Or.inr ⟨ha, h1, h2⟩

theorem contains_bbox_foldl_init {α : Type} (f : α → BBox) (l : List α)
    {init c : BBox} (h : init.contains_bbox c) :
    (l.foldl (fun acc y => acc.box_union (f y)) init).contains_bbox c := by
  induction l generalizing init with
  | nil => exact h
  | cons y ys ih => exact ih (contains_bbox_box_union_left_mono (f y) h)

theorem contains_bbox_foldl_union {α : Type} (f : α → BBox) (l : List α) :
    ∀ (init : BBox) (x : α), x ∈ l →
    (l.foldl (fun acc y => acc.box_union (f y)) init).contains_bbox (f x) := by
  induction l with
  | nil => intro _ _ hx; cases hx
  | cons y ys ih =>
    intro init x hx
    rcases List.mem_cons.mp hx with rfl | hx2
    · exact contains_bbox_foldl_init f ys (contains_bbox_box_union_right init (f x))
    · exact ih _ x hx2

theorem exists_cons_cons_of_two_le {α : Type} {l : List α} (h : 2 ≤ l.length) :
    ∃ x y tl, l = x :: y :: tl := by
  cases l with
  | nil => simp at h
  | cons x rest =>
    cases rest with
    | nil => simp at h
    | cons y tl => exact ⟨x, y, tl, rfl⟩

/-! Concrete sample values used to instantiate the theorems. -/

/-- Sample keyframe: pure translation by (1,0,0) at time 0. -/
def kfTrans : Keyframe := ⟨0, ⟨1, 0, 0⟩, ⟨0, 0, 0, 1⟩, ⟨1, 1, 1⟩⟩

/-- Sample keyframe: pure scaling by 2 along x at time 0. -/
def kfScale : Keyframe := ⟨0, ⟨0, 0, 0⟩, ⟨0, 0, 0, 1⟩, ⟨2, 1, 1⟩⟩

/-- Sample keyframe at time 1 carrying the negated identity quaternion. -/
def kfNegRot : Keyframe := ⟨1, ⟨0, 0, 0⟩, ⟨0, 0, 0, -1⟩, ⟨1, 1, 1⟩⟩

/-- Sample keyframe at time 2. -/
def kfLate : Keyframe := ⟨2, ⟨0, 0, 1⟩, ⟨0, 0, 0, 1⟩, ⟨1, 1, 1⟩⟩

/-- A trivial curve evaluator used to instantiate theorems at concrete inputs. -/
def ptConst : SplinePoint := fun _ _ => default

/-- A single-level animated transform holding only the translation keyframe. -/
def atTrans : AnimatedTransform := ⟨[BSpline.new 1 [kfTrans] [0, 0, 0]]⟩

/-- A single-level animated transform holding only the scaling keyframe. -/
def atScale : AnimatedTransform := ⟨[BSpline.new 1 [kfScale] [0, 0, 0]]⟩

/-- An animated transform whose single level has two control keyframes. -/
def atMoving : AnimatedTransform := ⟨[BSpline.new 1 [kfTrans, kfLate] [0, 0, 2, 2]]⟩

/-- The normalized value produced from [kfNegRot, kfTrans]: sorted by time and
with the second rotation flipped to the positive-dot representative. -/
def atNorm : AnimatedTransform :=
  ⟨[BSpline.new 1 [kfTrans, { kfNegRot with rotation := ⟨0, 0, 0, 1⟩ }] [0, 0, 1, 1]]⟩

/-- A sample unit box. -/
def boxUnit : BBox := ⟨false, ⟨0, 0, 0⟩, ⟨1, 1, 1⟩⟩

/-! The claims. -/

/-- C1 counterexample: on an AnimatedTransform with an empty level list,
is_animated does not return false as the claim states; the is_empty()
disjunct of line 77 makes it return true. -/
theorem is_animated_empty_not_false :
    ¬ (AnimatedTransform.is_animated ⟨[]⟩ = false) := by decide

/-- C1 (amended): is_animated returns true (not false) when the level list is
empty, and for a non-empty level list it returns true if and only if every
level's curve holds more than one control keyframe. -/
theorem is_animated_characterization (a : AnimatedTransform) :
    (a.keyframes = [] → a.is_animated = true) ∧
    (a.keyframes ≠ [] →
      (a.is_animated = true ↔ ∀ s ∈ a.keyframes, 1 < s.control_points.length)) := by
  constructor
  · intro h
    rw [AnimatedTransform.is_animated, h]
    rfl
  · intro h
    have hne : a.keyframes.isEmpty = false := by
      cases hk : a.keyframes
      · exact absurd hk h
      · rfl
    rw [AnimatedTransform.is_animated, hne, foldl_and_eq, Bool.false_or,
      Bool.true_and]
    simp [List.all_eq_true]

/-- C1 witness: the amended characterization at the empty transform and at a
transform with one two-keyframe level. -/
theorem is_animated_characterization_witness :
    AnimatedTransform.is_animated ⟨[]⟩ = true ∧
    (AnimatedTransform.is_animated atMoving = true ↔
      ∀ s ∈ atMoving.keyframes, 1 < s.control_points.length) :=
  ⟨(is_animated_characterization ⟨[]⟩).1 rfl,
   (is_animated_characterization atMoving).2 (by simp [atMoving])⟩

/-- C2 counterexample: with A a pure translation and B a pure scaling, the
composite A * B at time 0 moves the origin to (1,0,0), whereas applying A's
pose first and then B's pose moves it to (2,0,0): the claimed child-then-
parent order (self applied first) does not hold. -/
theorem mul_transform_order_counterexample :
    ¬ (Transform.apply (AnimatedTransform.transform ptConst (atTrans.mul atScale) 0) ⟨0, 0, 0⟩ =
       Transform.apply (AnimatedTransform.transform ptConst atScale 0)
         (Transform.apply (AnimatedTransform.transform ptConst atTrans 0) ⟨0, 0, 0⟩)) := by
  norm_num [atTrans, atScale, kfTrans, kfScale, ptConst, AnimatedTransform.mul,
    AnimatedTransform.transform, levelPose, BSpline.new, Keyframe.transform,
    Quaternion.to_matrix, Mat3.scaling, Mat3.mul, Mat3.apply, Mat3.col0, Mat3.col1,
    Mat3.col2, Vec3.dot, Vec3.add_def, Vec3.add, Transform.mul, Transform.apply,
    Transform.identity, Mat3.id]

/-- C2 (amended): for any two AnimatedTransform values A (self) and B (rhs)
and any time t, the composed value A * B queried at t applies B's pose at t
first and then A's pose at t: the composite maps a point p to A(t) applied
to B(t) applied to p, so self is the outer (ancestor) operand and rhs the
inner (child) one. -/
theorem mul_transform_apply_order (pt : SplinePoint) (a b : AnimatedTransform)
    (t : ℚ) (p : Vec3) :
    Transform.apply (AnimatedTransform.transform pt (a.mul b) t) p =
      Transform.apply (AnimatedTransform.transform pt a t)
        (Transform.apply (AnimatedTransform.transform pt b t) p) := by
  rw [transform_mul_eq, Transform.apply_mul]

/-- C3: the knot vector built by with_keyframes repeats the first (sorted)
keyframe time three times when exactly one keyframe is given, and for two or
more keyframes it is built from the first two sorted times only, each twice,
regardless of the length of the list. -/
theorem with_keyframes_knot_vector (ks : List Keyframe) :
    (ks.length = 1 →
      AnimatedTransform.with_keyframes ks = some ⟨[BSpline.new 1
        (fixRotations (sortKeyframes ks))
        [((fixRotations (sortKeyframes ks)).getD 0 default).time,
         ((fixRotations (sortKeyframes ks)).getD 0 default).time,
         ((fixRotations (sortKeyframes ks)).getD 0 default).time]]⟩) ∧
    (2 ≤ ks.length →
      AnimatedTransform.with_keyframes ks = some ⟨[BSpline.new 1
        (fixRotations (sortKeyframes ks))
        [((fixRotations (sortKeyframes ks)).getD 0 default).time,
         ((fixRotations (sortKeyframes ks)).getD 0 default).time,
         ((fixRotations (sortKeyframes ks)).getD 1 default).time,
         ((fixRotations (sortKeyframes ks)).getD 1 default).time]]⟩) := by
  have hlen : (fixRotations (sortKeyframes ks)).length = ks.length := by
    rw [length_fixRotations, length_sortKeyframes]
  constructor
  · intro h1
    obtain ⟨x, hx⟩ := List.length_eq_one.mp (hlen.trans h1)
    rw [AnimatedTransform.with_keyframes]
    simp [hx]
  · intro h1
    obtain ⟨x, y, tl, hx⟩ := exists_cons_cons_of_two_le (hlen ▸ h1)
    rw [AnimatedTransform.with_keyframes]
    simp [hx]

/-- C3 witness: the knot vectors built for a one-keyframe list and for a
three-keyframe list. -/
theorem with_keyframes_knot_vector_witness :
    ([kfTrans].length = 1 ∧
      AnimatedTransform.with_keyframes [kfTrans] = some ⟨[BSpline.new 1
        (fixRotations (sortKeyframes [kfTrans]))
        [((fixRotations (sortKeyframes [kfTrans])).getD 0 default).time,
         ((fixRotations (sortKeyframes [kfTrans])).getD 0 default).time,
         ((fixRotations (sortKeyframes [kfTrans])).getD 0 default).time]]⟩) ∧
    (2 ≤ [kfTrans, kfNegRot, kfLate].length ∧
      AnimatedTransform.with_keyframes [kfTrans, kfNegRot, kfLate] = some ⟨[BSpline.new 1
        (fixRotations (sortKeyframes [kfTrans, kfNegRot, kfLate]))
        [((fixRotations (sortKeyframes [kfTrans, kfNegRot, kfLate])).getD 0 default).time,
         ((fixRotations (sortKeyframes [kfTrans, kfNegRot, kfLate])).getD 0 default).time,
         ((fixRotations (sortKeyframes [kfTrans, kfNegRot, kfLate])).getD 1 default).time,
         ((fixRotations (sortKeyframes [kfTrans, kfNegRot, kfLate])).getD 1 default).time]]⟩) :=
  ⟨⟨rfl, (with_keyframes_knot_vector [kfTrans]).1 rfl⟩,
   ⟨by decide, (with_keyframes_knot_vector [kfTrans, kfNegRot, kfLate]).2 (by decide)⟩⟩

/-- C4: an AnimatedTransform built from a single keyframe evaluates to that
keyframe's materialized pose at every time, for every curve evaluator (the
interpolation query is never consulted). -/
theorem single_keyframe_transform_const (pt : SplinePoint) (k : Keyframe)
    (a : AnimatedTransform) (h : AnimatedTransform.with_keyframes [k] = some a)
    (t : ℚ) :
    AnimatedTransform.transform pt a t = Keyframe.transform k := by
  have hw : AnimatedTransform.with_keyframes [k] =
      some ⟨[BSpline.new 1 [k] [k.time, k.time, k.time]]⟩ := rfl
  rw [hw] at h
  have ha := Option.some.inj h
  subst ha
  rw [AnimatedTransform.transform]
  simp [levelPose, BSpline.new, Transform.mul_one]

/-- C4 witness: the single-keyframe construction at the translation keyframe,
queried at time 5 with a trivial evaluator. -/
theorem single_keyframe_transform_const_witness :
    AnimatedTransform.with_keyframes [kfTrans] =
      some ⟨[BSpline.new 1 [kfTrans] [kfTrans.time, kfTrans.time, kfTrans.time]]⟩ ∧
    AnimatedTransform.transform ptConst
      ⟨[BSpline.new 1 [kfTrans] [kfTrans.time, kfTrans.time, kfTrans.time]]⟩ 5 =
      Keyframe.transform kfTrans :=
  ⟨rfl, single_keyframe_transform_const ptConst kfTrans _ rfl 5⟩

/-- C5: every level stored by with_keyframes holds the normalized keyframe
sequence: sorted ascending by time, with every adjacent pair of rotations at
non-negative dot product. -/
theorem with_keyframes_normalized (ks : List Keyframe) (a : AnimatedTransform)
    (h : AnimatedTransform.with_keyframes ks = some a) (s : BSpline)
    (hs : s ∈ a.keyframes) :
    List.Pairwise (fun x y => x.time ≤ y.time) s.control_points ∧
    List.Chain' (fun x y => 0 ≤ Quaternion.dot x.rotation y.rotation)
      s.control_points := by
  obtain ⟨kn, rfl⟩ := with_keyframes_shape h
  have hs2 : s = BSpline.new 1 (fixRotations (sortKeyframes ks)) kn := by
    simpa using hs
  subst hs2
  simp only [BSpline.new]
  exact ⟨pairwise_time_fixRotations _ (pairwise_sortKeyframes ks),
    chain_dot_fixRotations _⟩

/-- C5 witness: normalizing the out-of-order list [kfNegRot, kfTrans] sorts it
and flips the second rotation, and the stored level satisfies both the
ordering and the dot-product property. -/
theorem with_keyframes_normalized_witness :
    AnimatedTransform.with_keyframes [kfNegRot, kfTrans] = some atNorm ∧
    BSpline.new 1 [kfTrans, { kfNegRot with rotation := ⟨0, 0, 0, 1⟩ }] [0, 0, 1, 1] ∈
      atNorm.keyframes ∧
    (List.Pairwise (fun x y => x.time ≤ y.time)
      (BSpline.new 1 [kfTrans, { kfNegRot with rotation := ⟨0, 0, 0, 1⟩ }]
        [0, 0, 1, 1]).control_points ∧
     List.Chain' (fun x y => 0 ≤ Quaternion.dot x.rotation y.rotation)
      (BSpline.new 1 [kfTrans, { kfNegRot with rotation := ⟨0, 0, 0, 1⟩ }]
        [0, 0, 1, 1]).control_points) :=
  ⟨by norm_num [AnimatedTransform.with_keyframes, sortKeyframes, insertKeyframe,
      fixRotations, fixRotationsFrom, correctRotation, Quaternion.dot,
      Quaternion.neg_def, Quaternion.neg, kfTrans, kfNegRot, BSpline.new, atNorm],
   by simp [atNorm],
   with_keyframes_normalized [kfNegRot, kfTrans] atNorm
    (by norm_num [AnimatedTransform.with_keyframes, sortKeyframes, insertKeyframe,
      fixRotations, fixRotationsFrom, correctRotation, Quaternion.dot,
      Quaternion.neg_def, Quaternion.neg, kfTrans, kfNegRot, BSpline.new, atNorm])
    _ (by simp [atNorm])⟩

/-- C6: composing A * B yields the level list of B followed by the level list
of A, for any two operands, empty ones included (the operation is total). -/
theorem mul_levels_append (a b : AnimatedTransform) :
    (a.mul b).keyframes = b.keyframes ++ a.keyframes :=
  mul_keyframes_eq a b

/-- C7: when is_animated is false, animation_bounds is exactly the input box
transformed once by the pose at the start time. -/
theorem animation_bounds_not_animated (pt : SplinePoint) (a : AnimatedTransform)
    (b : BBox) (s e : ℚ) (h : a.is_animated = false) :
    AnimatedTransform.animation_bounds pt a b s e =
      Transform.mul_bbox (AnimatedTransform.transform pt a s) b := by
  rw [AnimatedTransform.animation_bounds, h]
  rfl

/-- C7 witness: the static single-keyframe transform over [0,1]. -/
theorem animation_bounds_not_animated_witness :
    AnimatedTransform.is_animated atTrans = false ∧
    AnimatedTransform.animation_bounds ptConst atTrans boxUnit 0 1 =
      Transform.mul_bbox (AnimatedTransform.transform ptConst atTrans 0) boxUnit :=
  ⟨rfl, animation_bounds_not_animated ptConst atTrans boxUnit 0 1 rfl⟩

/-- C8: when is_animated is true, animation_bounds samples the 128 times
lerp(i/127, start, stop) for i in 0..128 and its result contains the box
transformed at every one of those times; the fractional positions 0/127 and
127/127 reach start and stop, so both endpoints are sampled. -/
theorem animation_bounds_sample_containment (pt : SplinePoint)
    (a : AnimatedTransform) (b : BBox) (s e : ℚ)
    (h : a.is_animated = true) (i : ℕ) (hi : i < 128) :
    BBox.contains_bbox (AnimatedTransform.animation_bounds pt a b s e)
      (Transform.mul_bbox
        (AnimatedTransform.transform pt a (lerp ((i : ℚ) / 127) s e)) b) ∧
    lerp ((0 : ℚ) / 127) s e = s ∧ lerp ((127 : ℚ) / 127) s e = e := by
  refine ⟨?_, ?_, ?_⟩
  · rw [AnimatedTransform.animation_bounds, h]
    simp only [Bool.not_true, Bool.false_eq_true, if_false]
    exact contains_bbox_foldl_union
      (fun j : ℕ => Transform.mul_bbox
        (AnimatedTransform.transform pt a (lerp ((j : ℚ) / 127) s e)) b)
      (List.range 128) BBox.new i (List.mem_range.mpr hi)
  · rw [lerp]
    norm_num
  · rw [lerp]
    norm_num

/-- C8 witness: the two-keyframe transform sampled over [0,1] at i = 3. -/
theorem animation_bounds_sample_containment_witness :
    AnimatedTransform.is_animated atMoving = true ∧ 3 < 128 ∧
    (BBox.contains_bbox (AnimatedTransform.animation_bounds ptConst atMoving boxUnit 0 1)
      (Transform.mul_bbox
        (AnimatedTransform.transform ptConst atMoving (lerp ((3 : ℚ) / 127) 0 1)) boxUnit) ∧
     lerp ((0 : ℚ) / 127) 0 1 = 0 ∧ lerp ((127 : ℚ) / 127) 0 1 = 1) :=
  ⟨rfl, by decide,
   animation_bounds_sample_containment ptConst atMoving boxUnit 0 1 rfl 3 (by decide)⟩

/-- C9: constructing from an empty keyframe list fails fast instead of
producing a value: the source indexes keyframes[0] in the knot-vector branch
and panics, which the embedding models by returning none. -/
theorem with_keyframes_empty_fails :
    AnimatedTransform.with_keyframes ([] : List Keyframe) = none := rfl

/-- C10: an AnimatedTransform with an empty level list evaluates to the
identity transform at every time, for every curve evaluator. -/
theorem transform_empty_identity (pt : SplinePoint) (t : ℚ) :
    AnimatedTransform.transform pt ⟨[]⟩ t = Transform.identity := rfl

end TrayRust
